import Mathlib

/-!
Verification of the document-structure engine of the ClaudeCodeArchitect
repository: attribute scanner, include resolver, section scanner, structure
builder and compiled-output differ, shallowly embedded from the Go sources
(internal/parser/attributes.go, internal/parser/includes.go,
internal/parser/structure.go, internal/differ/differ.go).

Strings are modelled as Lean `String` (a wrapper around `List Char`), file
systems as finite association lists from path to content, and the two
file-walking recursions (`collectIncludes`, `buildNodeRecursive`) are given
explicit fuel together with stabilisation theorems showing the fuel is
irrelevant once it exceeds the number of files, which is the termination
argument of the Go code (the visited set can only grow inside the finite
file system).
-/

namespace CCA

/-! ## Character classes and basic string utilities -/

/-- Character class of Go regexp `\s` (Perl whitespace): `[\t\n\f\r ]`. -/

def isGoRegexSpace (c : Char) : Bool :=
  c = ' ' || c = '\t' || c = '\n' || c = '\u000c' || c = '\r'

/-- Character class of Go `unicode.IsSpace` restricted to ASCII, used by
`strings.TrimSpace`: `[\t\n\v\f\r ]`. -/

def isGoSpace (c : Char) : Bool :=
  c = ' ' || c = '\t' || c = '\n' || c = '\u000b' || c = '\u000c' || c = '\r'

/-- Character class `[a-zA-Z0-9_-]` used by the attribute-name and tag-name
regexes. -/

def isGoNameChar (c : Char) : Bool :=
  c.isAlpha || c.isDigit || c = '_' || c = '-'

/-- Go `strings.TrimSpace` on a character list (ASCII whitespace model). -/

def goTrim (l : List Char) : List Char :=
  ((l.dropWhile isGoSpace).reverse.dropWhile isGoSpace).reverse

/-- Go `strings.Split(s, "\n")` on a character list: always returns at least
one (possibly empty) piece. -/

def splitOnNl : List Char → List (List Char)
  | [] => [[]]
  | c :: rest =>
    if c = '\n' then [] :: splitOnNl rest
    else
      match splitOnNl rest with
      | [] => [[c]]
      | l :: ls => (c :: l) :: ls

/-- Drop one trailing carriage return, as Go `bufio.ScanLines` does to each
token. -/

def dropCR (l : List Char) : List Char :=
  if l.getLast? = some '\r' then l.dropLast else l

/-- Go `bufio.Scanner` with `ScanLines`: splits at newlines, produces no
token after a final newline, and strips one trailing `\r` per line. -/

def scanLines (s : List Char) : List (List Char) :=
  if s = [] then []
  else
    let ls := splitOnNl s
    (if ls.getLast? = some [] then ls.dropLast else ls).map dropCR

/-- Does `pre` occur at the start of `l`? (Go `strings.HasPrefix` model.) -/

def startsWithL : List Char → List Char → Bool
  | [], _ => true
  | _ :: _, [] => false
  | a :: as, b :: bs => a = b && startsWithL as bs

/-- Does `needle` occur as a contiguous substring of `hay`?
(Go `strings.Contains` / `regexp.MatchString` on a quoted literal.) -/

def containsSub (needle : List Char) : List Char → Bool
  | [] => startsWithL needle []
  | hay@(_ :: t) => startsWithL needle hay || containsSub needle t

/-- Helper for `countOcc`: while `skip` is positive the scanner is inside a
previous match and only consumes characters. -/

def countOccAux (needle : List Char) : List Char → Nat → Nat
  | [], _ => 0
  | hay@(_ :: t), 0 =>
    if needle ≠ [] ∧ startsWithL needle hay then
      1 + countOccAux needle t (needle.length - 1)
    else countOccAux needle t 0
  | _ :: t, k + 1 => countOccAux needle t k

/-- Count of non-overlapping occurrences of `needle` in `hay`, leftmost
first. -/

def countOcc (needle hay : List Char) : Nat := countOccAux needle hay 0

/-! ## Association lists: the model of Go maps

Go map iteration order is unspecified; the model fixes first-insertion
order, and every theorem below that depends on iteration order only does so
through properties that are order-independent (emptiness, membership, or
maps with at most one relevant entry). -/

/-- Lookup in an association list. -/

def lookupA {α β : Type} [DecidableEq α] : List (α × β) → α → Option β
  | [], _ => none
  | (k, v) :: rest, key => if k = key then some v else lookupA rest key

/-- Go map assignment `m[k] = v`: overwrite in place, else append. -/

def upsert {α β : Type} [DecidableEq α] : List (α × β) → α → β → List (α × β)
  | [], k, v => [(k, v)]
  | (k', v') :: rest, k, v =>
    if k' = k then (k, v) :: rest else (k', v') :: upsert rest k v

def keysA {α β : Type} (m : List (α × β)) : List α := m.map Prod.fst

/-! ## Attribute scanner (internal/parser, attributes source file) -/

/-- Match of the Go regex `^:([a-zA-Z0-9_-]+):\s*(.*)$` against one line:
returns the name capture and the second capture, that is the rest of the
line after the greedy `\s*` has consumed the leading regex whitespace.
Lines never contain a newline, so `.` matches every remaining character. -/

def attrLineMatch (l : List Char) : Option (List Char × List Char) :=
  match l with
  | ':' :: rest =>
    let name := rest.takeWhile isGoNameChar
    if name = [] then none
    else
      match rest.dropWhile isGoNameChar with
      | ':' :: tail => some (name, tail.dropWhile isGoRegexSpace)
      | _ => none
  | _ => none

/-- One line step of Go `ExtractAttributes`: on a matching line assign
`attrs[name] = strings.TrimSpace(value)`, otherwise ignore the line. -/

def attrStep (attrs : List (String × String)) (line : List Char) :
    List (String × String) :=
  match attrLineMatch line with
  | some (name, m2) => upsert attrs name.asString (goTrim m2).asString
  | none => attrs

/-- Go `ExtractAttributes`: scan content line by line with a `bufio.Scanner`
and build the name-to-trimmed-value map, the last declaration winning. -/

def extractAttributes (content : String) : List (String × String) :=
  (scanLines content.toList).foldl attrStep []

/-- Left-biased choice on options. -/

def orO {α : Type} : Option α → Option α → Option α
  | some v, _ => some v
  | none, b => b

/-- Written from the spec's words, for comparison with `extractAttributes`:
the most recently declared value for `name` over the given lines, with
surrounding whitespace removed, or `none` when no line declares `name`. -/

def specLastDeclaredValue (name : String) : List (List Char) → Option String
  | [] => none
  | l :: rest =>
    match specLastDeclaredValue name rest with
    | some v => some v
    | none =>
      match attrLineMatch l with
      | some (n, m2) => if n.asString = name then some (goTrim m2).asString else none
      | none => none

/-! ## Attribute usage finder (internal/parser, attributes source file) -/

/-- One reference site of an attribute (Go struct `AttributeUsage`). -/

structure AttributeUsage where
  name : String
  filePath : String
  line : Nat
  context : String
  sectionTitle : String
deriving Repr, DecidableEq

/-- Section title carried by a heading line: Go
`strings.TrimSpace(strings.TrimLeft(line, "= "))`. -/

def headingTitleChars (l : List Char) : List Char :=
  goTrim (l.dropWhile (fun c => c = '=' || c = ' '))

/-- Loop of Go `FindAttributeUsages` over `strings.Split(content, "\n")`:
`idx` is the zero-based index of the current line and `cur` the current
section title; a heading line (prefix `=`) updates `cur` before the match
test, and a line matching the literal pattern `{attrName}` contributes one
usage. -/

def findUsagesLoop (filePath attrName : String) (pat : List Char) :
    List (List Char) → Nat → List Char → List AttributeUsage
  | [], _, _ => []
  | line :: rest, idx, cur =>
    let cur' := if line.head? = some '=' then headingTitleChars line else cur
    let tail := findUsagesLoop filePath attrName pat rest (idx + 1) cur'
    if containsSub pat line then
      ⟨attrName, filePath, idx + 1, (goTrim line).asString, cur'.asString⟩ :: tail
    else tail

/-- Go `FindAttributeUsages`: one usage per line of `content` containing the
literal `{attrName}` (the compiled pattern is `\{QuoteMeta(attrName)\}` and
only `MatchString` is asked per line). -/

def findAttributeUsages (content filePath attrName : String) : List AttributeUsage :=
  findUsagesLoop filePath attrName (('{' :: attrName.toList) ++ ['}'])
    (splitOnNl content.toList) 0 []

/-- List with zero-based positions attached, starting at `n`. -/

def withIdx {α : Type} : List α → Nat → List (Nat × α)
  | [], _ => []
  | a :: as, n => (n, a) :: withIdx as (n + 1)

/-- Written from the spec's words: the nearest heading line (prefix `=`) in
the prefix `pre` of the file, read as a title, and `dflt` when `pre` has no
heading line. -/

def specSectionAt (pre : List (List Char)) (dflt : List Char) : List Char :=
  match (pre.filter (fun l => l.head? = some '=')).getLast? with
  | some h => headingTitleChars h
  | none => dflt

/-! ## File system model

The engine reads files only through `os.Open` / `os.ReadFile`; the model is
a finite association list from path to content, `none` meaning the read
fails. -/

/-- A finite file system: list of (path, content) pairs. -/
abbrev FS := List (String × String)

/-- Read a file: Go `os.ReadFile`, failing when the path is absent. -/
def fsRead : FS → String → Option String
  | [], _ => none
  | (k, v) :: rest, p => if k = p then some v else fsRead rest p

/-! ## Section scanner (internal/parser, structure source file) -/

/-- One section of the specification (Go struct `SectionInfo`); `endLine`
is `-1` for a section still open at end of file. -/
structure SectionInfo where
  title : String
  level : Nat
  filePath : String
  startLine : Nat
  endLine : Int
deriving Repr, DecidableEq

/-- Match of the Go regex `^(=+)\s+(.+)$` against one line: the first
capture is the maximal leading run of `=` (backtracking cannot shorten it
because the following `\s+` never matches `=`), the second capture is the
remainder after the greedy `\s+`; when the whole remainder after the `=`
run is whitespace, the greedy `\s+` gives one character back so that `.+`
is nonempty. Returns the length of the first capture and the second
capture. -/
def sectionLineMatch (l : List Char) : Option (Nat × List Char) :=
  let eqs := l.takeWhile (fun c => c = '=')
  let rest := l.dropWhile (fun c => c = '=')
  if eqs = [] then none
  else
    let ws := rest.takeWhile isGoRegexSpace
    let tail := rest.dropWhile isGoRegexSpace
    if ws = [] then none
    else if tail = [] then
      if 2 ≤ ws.length then some (eqs.length, [ws.getLast?.getD ' ']) else none
    else some (eqs.length, tail)

/-- Close the most recently opened section: Go
`prevSection.EndLine = lineNum - 1` through the pointer to the last slice
element; no-op when no section is open yet. -/
def setLastEnd : List SectionInfo → Int → List SectionInfo
  | [], _ => []
  | [s], e => [{ s with endLine := e }]
  | s :: rest, e => s :: setLastEnd rest e

/-- Scanner loop of Go `ExtractSectionsFromFile`: `n` is the 1-based number
of the current line; a heading line closes the previous section at line
`n - 1` and opens a new one with level `count of = minus 1`, trimmed title,
start line `n` and open end `-1`. -/
def extractSectionsLoop (filePath : String) :
    List (List Char) → Nat → List SectionInfo → List SectionInfo
  | [], _, acc => acc
  | line :: rest, n, acc =>
    match sectionLineMatch line with
    | some (k, m2) =>
      extractSectionsLoop filePath rest (n + 1)
        (setLastEnd acc ((n : Int) - 1) ++
          [⟨(goTrim m2).asString, k - 1, filePath, n, -1⟩])
    | none => extractSectionsLoop filePath rest (n + 1) acc

/-- Go `ExtractSectionsFromFile`: read the file and scan its lines. -/
def extractSectionsFromFile (fs : FS) (filePath : String) : Option (List SectionInfo) :=
  (fsRead fs filePath).map (fun content =>
    extractSectionsLoop filePath (scanLines content.toList) 1 [])

/-- The heading data of a section, ignoring the end line. -/
def secProj (s : SectionInfo) : Nat × Nat × String := (s.startLine, s.level, s.title)

/-- Written from the spec's words, for comparison with the scanner: one
entry per heading line, carrying its 1-based line number, the count of
leading `=` minus 1, and the trimmed heading text. -/
def specSectionHeads (lines : List (List Char)) : List (Nat × Nat × String) :=
  (withIdx lines 1).filterMap (fun p =>
    (sectionLineMatch p.2).map (fun m => (p.1, m.1 - 1, (goTrim m.2).asString)))

/-! ## File-backed attribute scan (internal/parser, attributes source file) -/

/-- One attribute definition site (Go struct `AttributeDefinition`). -/
structure AttributeDefinition where
  name : String
  value : String
  filePath : String
  line : Nat
deriving Repr, DecidableEq

/-- Scanner loop of Go `ExtractAttributesFromFile`: `n` is the 1-based
number of the current line; each matching line contributes one definition
with the trimmed value. -/
def extractAttrDefsLoop (filePath : String) :
    List (List Char) → Nat → List AttributeDefinition
  | [], _ => []
  | line :: rest, n =>
    match attrLineMatch line with
    | some (nm, m2) =>
      ⟨nm.asString, (goTrim m2).asString, filePath, n⟩ ::
        extractAttrDefsLoop filePath rest (n + 1)
    | none => extractAttrDefsLoop filePath rest (n + 1)

/-- Go `ExtractAttributesFromFile`: read the file and scan its lines. -/
def extractAttributesFromFile (fs : FS) (filePath : String) :
    Option (List AttributeDefinition) :=
  (fsRead fs filePath).map (fun content =>
    extractAttrDefsLoop filePath (scanLines content.toList) 1)

/-- Fixture: a one-file system exercising the section scanner on headings
of several levels, an indented pseudo-heading and a marker with no
whitespace after it. -/
def fsC7 : FS := [("/m", "= Title\ntext\n== Sub A\n  == indented\n=nospace\n=== Deep\n")]

/-- The content of the single file of `fsC7`. -/
def contentC7 : String := "= Title\ntext\n== Sub A\n  == indented\n=nospace\n=== Deep\n"

/-! ## Compiled-output differ (internal/differ/differ.go) -/

/-- The three diff operations of the external `go-diff` library. -/
inductive DiffOp where
  | del
  | ins
  | eq
deriving Repr, DecidableEq

/-- One diff fragment of the external `go-diff` library. -/
structure GoDiff where
  op : DiffOp
  text : List Char
deriving Repr, DecidableEq

/-- Longest common prefix of two lists. -/
def commonPrefixG {α : Type} [DecidableEq α] : List α → List α → List α
  | a :: as, b :: bs => if a = b then a :: commonPrefixG as bs else []
  | _, _ => []

/-- Longest common suffix of two lists. -/
def commonSuffixG {α : Type} [DecidableEq α] (a b : List α) : List α :=
  (commonPrefixG a.reverse b.reverse).reverse

/-- Modelled from the spec: the external `go-diff` dependency's
`DiffMain(text1, text2, false)` is not part of this repository. The model
is exact on the cases with a documented deterministic result, which are the
only ones the theorems below evaluate: equal texts yield one equal fragment
(nothing for empty texts), and when after trimming the common prefix and
suffix one side is empty the rest is a single insertion or deletion. A
remaining two-sided middle is modelled coarsely as one deletion plus one
insertion; no theorem below depends on that case. -/
def diffMainModel (a b : List Char) : List GoDiff :=
  if a = b then (if a = [] then [] else [⟨DiffOp.eq, a⟩])
  else
    let p := commonPrefixG a b
    let a1 := a.drop p.length
    let b1 := b.drop p.length
    let s := commonSuffixG a1 b1
    let a2 := a1.take (a1.length - s.length)
    let b2 := b1.take (b1.length - s.length)
    let mid :=
      if a2 = [] then [⟨DiffOp.ins, b2⟩]
      else if b2 = [] then [⟨DiffOp.del, a2⟩]
      else [⟨DiffOp.del, a2⟩, ⟨DiffOp.ins, b2⟩]
    (if p = [] then [] else [⟨DiffOp.eq, p⟩]) ++ mid ++
      (if s = [] then [] else [⟨DiffOp.eq, s⟩])

/-- Line count of one diff fragment in Go `countChangedLines`: the newline
count, plus one when the fragment is nonempty and does not end in a
newline. -/
def diffLineCount (d : GoDiff) : Nat :=
  d.text.count '\n' + (if d.text ≠ [] ∧ d.text.getLast? ≠ some '\n' then 1 else 0)

/-- Go `countChangedLines`: (added, removed) line counts over the character
diff of the two texts. -/
def countChangedLines (old new : List Char) : Nat × Nat :=
  (diffMainModel old new).foldl
    (fun acc d =>
      match d.op with
      | DiffOp.ins => (acc.1 + diffLineCount d, acc.2)
      | DiffOp.del => (acc.1, acc.2 + diffLineCount d)
      | DiffOp.eq => acc) (0, 0)

/-- Loop of Go `extractSectionBlocks` over `strings.Split(content, "\n")`:
a line starting with `#` saves the block built so far (when a title is
open) and opens a new block titled with the leading `#` and space characters
stripped; other lines are appended (with a newline) to the open block, and
lines before the first heading are dropped. -/
def extractBlocksLoop :
    List (List Char) → List Char → List Char → List (String × String) →
    List (String × String)
  | [], title, content, acc =>
    if title ≠ [] then upsert acc title.asString content.asString else acc
  | line :: rest, title, content, acc =>
    if line.head? = some '#' then
      extractBlocksLoop rest (line.dropWhile (fun c => c = '#' || c = ' ')) []
        (if title ≠ [] then upsert acc title.asString content.asString else acc)
    else if title ≠ [] then
      extractBlocksLoop rest title (content ++ line ++ ['\n']) acc
    else
      extractBlocksLoop rest title content acc

/-- Go `extractSectionBlocks`: map from section title to body text of the
rendered Markdown. -/
def extractSectionBlocks (content : String) : List (String × String) :=
  extractBlocksLoop (splitOnNl content.toList) [] [] []

/-- One per-section change of the diff report (Go struct `SectionChange`). -/
structure SectionChange where
  sectionTitle : String
  changeType : String
  addedLines : Nat
  removedLines : Nat
deriving Repr, DecidableEq

/-- Core of Go `analyzeSectionChanges` over the two section maps: first the
modified and removed sections in iteration order of the old map, then the
added sections in iteration order of the new map. -/
def sectionChangesOf (oldS newS : List (String × String)) : List SectionChange :=
  (oldS.filterMap (fun p =>
    match lookupA newS p.1 with
    | some nc =>
      if p.2 ≠ nc then
        some ⟨p.1, "modified", (countChangedLines p.2.toList nc.toList).1,
              (countChangedLines p.2.toList nc.toList).2⟩
      else none
    | none => some ⟨p.1, "removed", 0, p.2.toList.count '\n' + 1⟩)) ++
  (newS.filterMap (fun p =>
    if (lookupA oldS p.1).isNone then
      some ⟨p.1, "added", p.2.toList.count '\n' + 1, 0⟩
    else none))

/-- Go `analyzeSectionChanges`: per-section classification of the diff of
two rendered strings. -/
def analyzeSectionChanges (old new : String) : List SectionChange :=
  sectionChangesOf (extractSectionBlocks old) (extractSectionBlocks new)

/-- Split into lines that keep their trailing newline, the token shape of
the external `DiffLinesToChars`. -/
def splitKeepNl : List Char → List (List Char)
  | [] => []
  | c :: rest =>
    if c = '\n' then ['\n'] :: splitKeepNl rest
    else
      match splitKeepNl rest with
      | [] => [[c]]
      | l :: ls => (c :: l) :: ls

/-- Modelled from the spec: the external `go-diff` pipeline
`DiffLinesToChars` then `DiffMain(false)` then `DiffCharsToLines` used by
`generateUnifiedDiff` is not part of this repository; the model works at
line granularity with the same deterministic cases as `diffMainModel`
(exact for equal inputs, the only case a theorem below evaluates). -/
def lineDiffModel (a b : List Char) : List GoDiff :=
  if a = b then (if a = [] then [] else [⟨DiffOp.eq, a⟩])
  else
    let la := splitKeepNl a
    let lb := splitKeepNl b
    let p := commonPrefixG la lb
    let la1 := la.drop p.length
    let lb1 := lb.drop p.length
    let s := commonSuffixG la1 lb1
    let la2 := la1.take (la1.length - s.length)
    let lb2 := lb1.take (lb1.length - s.length)
    let mid :=
      if la2 = [] then [⟨DiffOp.ins, lb2.flatten⟩]
      else if lb2 = [] then [⟨DiffOp.del, la2.flatten⟩]
      else [⟨DiffOp.del, la2.flatten⟩, ⟨DiffOp.ins, lb2.flatten⟩]
    (if p = [] then [] else [⟨DiffOp.eq, p.flatten⟩]) ++ mid ++
      (if s = [] then [] else [⟨DiffOp.eq, s.flatten⟩])

/-- The lines one diff fragment contributes to the reduced unified diff in
Go `generateUnifiedDiff`: deletions prefixed `-`, insertions prefixed `+`,
equal runs and empty split pieces omitted. -/
def diffOutputLines (d : GoDiff) : List Char :=
  ((splitOnNl d.text).filterMap (fun line =>
    if line = [] then none
    else
      match d.op with
      | DiffOp.del => some (('-' :: line) ++ ['\n'])
      | DiffOp.ins => some (('+' :: line) ++ ['\n'])
      | DiffOp.eq => none)).flatten

/-- Go `generateUnifiedDiff`: two header label lines followed by the
reduced diff lines. -/
def generateUnifiedDiff (old new oldLabel newLabel : String) : String :=
  (("--- ".toList ++ oldLabel.toList ++ ['\n'] ++
    "+++ ".toList ++ newLabel.toList ++ ['\n']) ++
   ((lineDiffModel old.toList new.toList).map diffOutputLines).flatten).asString

/-- Go `result.HasChanges = oldOutput != currentOutput` in `DiffCompiled`:
the unchanged flag is the pure string-equality test on the two rendered
outputs. -/
def hasChanges (old new : String) : Bool := old != new

/-! ## Include resolver (internal/parser/includes.go) -/

/-- One include directive (Go struct `IncludeInfo`). -/
structure IncludeInfo where
  path : String
  absPath : String
  line : Nat
  tags : List String
  sourceFile : String
deriving Repr, DecidableEq

/-- Match of the Go regex `^include::([^\[]+)\[(.*)\]$` against one trimmed
line: the path capture is the nonempty run of characters after
`include::` up to the first `[`, which must be present, and the options
capture is everything between that `[` and the final character, which must
be `]`. -/
def includeLineMatch (l : List Char) : Option (List Char × List Char) :=
  if startsWithL "include::".toList l then
    let rest := l.drop 9
    let path := rest.takeWhile (fun c => c ≠ '[')
    if path = [] then none
    else
      match rest.dropWhile (fun c => c ≠ '[') with
      | '[' :: tail =>
        if tail.getLast? = some ']' then some (path, tail.dropLast) else none
      | _ => none
  else none

/-- Helper for `parseTags`: while `skip` is positive the scanner is inside
a previous match and only consumes characters. -/
def parseTagsAux : List Char → Nat → List (List Char)
  | [], _ => []
  | opts@(_ :: t), 0 =>
    if startsWithL "tag=".toList opts then
      let name := (opts.drop 4).takeWhile isGoNameChar
      if name ≠ [] then name :: parseTagsAux t (4 + name.length - 1)
      else parseTagsAux t 0
    else parseTagsAux t 0
  | _ :: t, k + 1 => parseTagsAux t k

/-- All non-overlapping leftmost matches of the Go regex
`tag=([a-zA-Z0-9_-]+)` over the options capture, each returning its name
group. -/
def parseTags (opts : List Char) : List (List Char) := parseTagsAux opts 0

/-- Loop of Go `ExtractIncludes` over the scanner lines: `n` is the 1-based
line number; a trimmed line matching the include regex contributes one
directive, with tags parsed only when the options contain `tag=`. The
absolute path and source file are filled in later by
`ExtractIncludesFromFile`. -/
def extractIncludesLoop : List (List Char) → Nat → List IncludeInfo
  | [], _ => []
  | line :: rest, n =>
    match includeLineMatch (goTrim line) with
    | some (path, opts) =>
      ⟨path.asString, "", n,
       (if containsSub "tag=".toList opts then parseTags opts else []).map
         List.asString, ""⟩ :: extractIncludesLoop rest (n + 1)
    | none => extractIncludesLoop rest (n + 1)

/-- Go `ExtractIncludes`: all include directives of the content. -/
def extractIncludes (content : String) : List IncludeInfo :=
  extractIncludesLoop (scanLines content.toList) 1

/-! ## Path helpers

Modelled from the spec: the Go `path/filepath` functions are standard
library code outside this repository. The model assumes slash-separated,
lexically clean paths (no `.` or `..` segments, no trailing slash) and a
process working directory of `/`; it performs no lexical cleaning. -/

/-- Go `filepath.IsAbs`: a leading slash. -/
def goIsAbs (p : String) : Bool := startsWithL ['/'] p.toList

/-- Go `filepath.Join` for two components, without lexical cleaning. -/
def goJoin (a b : String) : String :=
  if a = "" then b
  else if b = "" then a
  else if a.toList.getLast? = some '/' then a ++ b
  else a ++ "/" ++ b

/-- Go `filepath.Dir`, without lexical cleaning. -/
def goDir (p : String) : String :=
  let l := p.toList
  if ¬ l.contains '/' then "."
  else
    let pre := ((l.reverse.dropWhile (fun c => c ≠ '/')).reverse).dropLast
    if pre = [] then "/" else pre.asString

/-- Go `filepath.Base`, without lexical cleaning. -/
def goBase (p : String) : String :=
  if p = "" then "."
  else
    let last := (p.toList.reverse.takeWhile (fun c => c ≠ '/')).reverse
    if last = [] then "/" else last.asString

/-- Go `filepath.Abs` with working directory `/`. -/
def goAbs (p : String) : String := if goIsAbs p then p else goJoin "/" p

/-- Go `ResolveIncludePath`: keep an absolute path, otherwise join with the
including file's directory. -/
def resolveIncludePath (baseDir includePath : String) : String :=
  if goIsAbs includePath then includePath else goJoin baseDir includePath

/-- Go `ExtractIncludesFromFile`: read the file, extract its directives and
fill in the source file and the resolved absolute path of each. -/
def extractIncludesFromFile (fs : FS) (filePath : String) :
    Option (List IncludeInfo) :=
  (fsRead fs filePath).map (fun content =>
    (extractIncludes content).map (fun inc =>
      { inc with
        sourceFile := filePath
        absPath := resolveIncludePath (goDir filePath) inc.path }))

/-! ## Recursive include discovery (`GetIncludedFiles` / `collectIncludes`)

The Go recursion terminates because the shared visited set only grows
inside a finite file system; the model makes the recursion structural on an
explicit fuel and proves below that any fuel exceeding the number of files
gives the same, defined result. -/

/-- The mutable state threaded through Go `collectIncludes`: the shared
visited set and the output file list. -/
structure CollectSt where
  visited : List String
  files : List String
deriving Repr, DecidableEq

/-- The loop body of Go `collectIncludes` over the directives of one file,
parameterized by the recursive call `f`: each directive's absolute path is
appended to the output list first, then the recursion enters it, and a
child error is swallowed by `continue`. `none` means out of fuel. -/
def collectLoopWith (f : String → CollectSt → Option (CollectSt × Bool)) :
    List IncludeInfo → CollectSt → Option (CollectSt × Bool)
  | [], st => some (st, true)
  | inc :: rest, st =>
    match f inc.absPath { st with files := st.files ++ [inc.absPath] } with
    | none => none
    | some (st', _) => collectLoopWith f rest st'

/-- Go `collectIncludes` with fuel: resolve the path, stop on an already
visited path, mark visited, and on a successful read walk the directives;
a read failure returns the error (`false`) with the state mutated so far.
`none` means out of fuel, which the stabilisation theorems below rule out
for sufficient fuel. -/
def collectIncludesF (fs : FS) : Nat → String → CollectSt → Option (CollectSt × Bool)
  | 0 => fun _ _ => none
  | fuel + 1 => fun filePath st =>
    let absPath := goAbs filePath
    if st.visited.contains absPath then some (st, true)
    else
      let st' := { st with visited := absPath :: st.visited }
      match extractIncludesFromFile fs absPath with
      | none => some (st', false)
      | some includes => collectLoopWith (collectIncludesF fs fuel) includes st'

/-- Go `GetIncludedFiles`: run `collectIncludes` from the manifest with an
empty visited set; an error gives `some none`, success the file list. -/
def getIncludedFiles (fuel : Nat) (fs : FS) (manifestPath : String) :
    Option (Option (List String)) :=
  match collectIncludesF fs fuel manifestPath ⟨[], []⟩ with
  | none => none
  | some (st, ok) => some (if ok then some st.files else none)

/-- The distinct paths of a file system. -/
def fsKeys (fs : FS) : List String := (fs.map Prod.fst).dedup

/-- Number of file-system paths not yet visited: the termination measure of
the traversals. -/
def unvisitedCount (fs : FS) (visited : List String) : Nat :=
  ((fsKeys fs).filter (fun k => !(visited.contains k))).length

/-! ## Include tree construction (`BuildIncludeTree` / `buildNodeRecursive`) -/

/-- One node of the include dependency tree (Go struct `IncludeNode`). -/
inductive IncludeNode where
  | mk (path : String) (absPath : String) (includes : List IncludeNode)
      (tags : List String)

/-- The base-name field of a node. -/
def IncludeNode.path : IncludeNode → String
  | .mk p _ _ _ => p

/-- The absolute-path field of a node. -/
def IncludeNode.absPath : IncludeNode → String
  | .mk _ a _ _ => a

/-- The children of a node. -/
def IncludeNode.includes : IncludeNode → List IncludeNode
  | .mk _ _ i _ => i

/-- The tag filter a node inherited from the directive that discovered it. -/
def IncludeNode.tags : IncludeNode → List String
  | .mk _ _ _ t => t

/-- The loop body of Go `buildNodeRecursive` over the directives of one
file, parameterized by the recursive call `f`: a `nil` child (cycle
back-edge) is not appended, every other child is. `none` means out of
fuel. -/
def buildNodeLoopWith
    (f : String → List String → List String → Option (Option IncludeNode × List String)) :
    List IncludeInfo → List IncludeNode → List String →
    Option (List IncludeNode × List String)
  | [], children, visited => some (children, visited)
  | inc :: rest, children, visited =>
    match f inc.absPath inc.tags visited with
    | none => none
    | some (childOpt, visited') =>
      buildNodeLoopWith f rest
        (match childOpt with
         | some c => children ++ [c]
         | none => children) visited'

/-- Go `buildNodeRecursive` with fuel: an already visited path yields `nil`
(cycle pruned), an unreadable file yields a childless node for the path,
and otherwise the node carries the children built from its directives.
`none` means out of fuel. -/
def buildNodeF (fs : FS) :
    Nat → String → List String → List String →
    Option (Option IncludeNode × List String)
  | 0 => fun _ _ _ => none
  | fuel + 1 => fun filePath tags visited =>
    if visited.contains filePath then some (none, visited)
    else
      let visited' := filePath :: visited
      match extractIncludesFromFile fs filePath with
      | none => some (some (IncludeNode.mk (goBase filePath) filePath [] tags), visited')
      | some includes =>
        match buildNodeLoopWith (buildNodeF fs fuel) includes [] visited' with
        | none => none
        | some (children, visited2) =>
          some (some (IncludeNode.mk (goBase filePath) filePath children tags), visited2)

/-- Go `BuildIncludeTree`: build from the resolved manifest path with an
empty visited set and no tags. -/
def buildIncludeTree (fuel : Nat) (fs : FS) (manifestPath : String) :
    Option (Option IncludeNode × List String) :=
  buildNodeF fs fuel (goAbs manifestPath) [] []

/-! ## Structure builder (internal/parser, structure source file) -/

/-- The aggregate parsed model (Go struct `SpecStructure`). -/
structure SpecStructure where
  manifestPath : String
  attributes : List (String × AttributeDefinition)
  includes : List IncludeInfo
  sections : List SectionInfo
  files : List String
deriving Repr, DecidableEq

/-- Go `BuildStructure` with fuel for the recursive include discovery:
attribute scan, include extraction and recursive resolution on the root are
fatal on failure (`some none`); section scanning of the included files
skips unreadable files. `none` means out of fuel. -/
def buildStructure (fuel : Nat) (fs : FS) (manifestPath : String) :
    Option (Option SpecStructure) :=
  match extractAttributesFromFile fs manifestPath with
  | none => some none
  | some attrs =>
    match extractIncludesFromFile fs manifestPath with
    | none => some none
    | some includes =>
      match getIncludedFiles fuel fs manifestPath with
      | none => none
      | some none => some none
      | some (some files) =>
        match extractSectionsFromFile fs manifestPath with
        | none => some none
        | some rootSecs =>
          some (some
            { manifestPath := manifestPath
              attributes := attrs.foldl (fun m a => upsert m a.name a) []
              includes := includes
              sections := files.foldl (fun acc f =>
                match extractSectionsFromFile fs f with
                | none => acc
                | some secs => acc ++ secs) rootSecs
              files := files })

/-! ## Fixtures for the include resolver and structure builder -/

/-- Fixture: the two-file cycle, `/a` includes `/b` and `/b` includes
`/a`. -/
def fsCycle : FS := [("/a", "include::/b[]"), ("/b", "include::/a[]")]

/-- Fixture: `/a` includes `/b` through two separate directives. -/
def fsDup : FS := [("/a", "include::/b[]\ninclude::/b[]"), ("/b", "text")]

/-- Fixture: `/a` includes a path absent from the file system. -/
def fsMissing : FS := [("/a", "include::/missing[]")]

/-- Fixture for the structure builder: the root declares an attribute, one
heading and one include; the included file has a heading and includes a
missing file. -/
def fsBuild : FS :=
  [("/m", ":k: v\ninclude::/i[]\n= Root\n"),
   ("/i", "== Inc\ninclude::/gone[]\n")]

/-! ## Theorems -/

theorem lookupA_upsert_self {α β : Type} [DecidableEq α]
    (m : List (α × β)) (k : α) (v : β) : lookupA (upsert m k v) k = some v := by
  induction m with
  | nil => simp [upsert, lookupA]
  | cons hd tl ih =>
    obtain ⟨k', v'⟩ := hd
    by_cases h : k' = k <;> simp [upsert, lookupA, h, ih]

theorem lookupA_upsert_ne {α β : Type} [DecidableEq α]
    (m : List (α × β)) (k key : α) (v : β) (h : k ≠ key) :
    lookupA (upsert m k v) key = lookupA m key := by
  induction m with
  | nil => simp [upsert, lookupA, h]
  | cons hd tl ih =>
    obtain ⟨k', v'⟩ := hd
    by_cases hk : k' = k
    · subst hk
      simp [upsert, lookupA, h]
    · simp [upsert, lookupA, hk, ih]

/-- Keys of an association list. -/

theorem keysA_upsert {α β : Type} [DecidableEq α]
    (m : List (α × β)) (k : α) (v : β) :
    keysA (upsert m k v) = if k ∈ keysA m then keysA m else keysA m ++ [k] := by
  induction m with
  | nil => simp [upsert, keysA]
  | cons hd tl ih =>
    obtain ⟨k', v'⟩ := hd
    by_cases h : k' = k
    · subst h
      simp [upsert, keysA]
    · have hne : ¬k = k' := fun hc => h hc.symm
      simp only [upsert, if_neg h, keysA, List.map_cons]
      simp only [keysA] at ih
      rw [ih]
      by_cases hmem : k ∈ tl.map Prod.fst <;> simp [hmem, hne]

theorem nodup_keysA_upsert {α β : Type} [DecidableEq α]
    (m : List (α × β)) (k : α) (v : β) (h : (keysA m).Nodup) :
    (keysA (upsert m k v)).Nodup := by
  rw [keysA_upsert]
  by_cases hmem : k ∈ keysA m
  · simpa [hmem]
  · simpa [hmem, List.nodup_append] using h

theorem lookupA_of_mem_nodup {α β : Type} [DecidableEq α]
    {m : List (α × β)} {k : α} {v : β}
    (hnd : (keysA m).Nodup) (hmem : (k, v) ∈ m) : lookupA m k = some v := by
  induction m with
  | nil => simp at hmem
  | cons hd tl ih =>
    obtain ⟨k', v'⟩ := hd
    simp only [keysA, List.map_cons, List.nodup_cons] at hnd
    rcases List.mem_cons.mp hmem with heq | htl
    · obtain ⟨h1, h2⟩ := Prod.mk.injEq .. ▸ heq
      cases heq
      simp [lookupA]
    · have hk : k' ≠ k := by
        intro hc
        subst hc
        exact hnd.1 (List.mem_map.mpr ⟨(k', v), htl, rfl⟩)
      simp only [lookupA, if_neg hk]
      exact ih hnd.2 htl

theorem lookupA_isSome_of_mem {α β : Type} [DecidableEq α]
    {m : List (α × β)} {k : α} {v : β}
    (hmem : (k, v) ∈ m) : (lookupA m k).isSome := by
  induction m with
  | nil => simp at hmem
  | cons hd tl ih =>
    obtain ⟨k', v'⟩ := hd
    by_cases h : k' = k
    · simp [lookupA, h]
    · rcases List.mem_cons.mp hmem with heq | htl
      · cases heq; simp at h
      · simpa [lookupA, h] using ih htl

theorem orO_none_right {α : Type} (o : Option α) : orO o none = o := by
  cases o <;> rfl

theorem lookupA_foldl_attrStep (name : String) :
    ∀ (lines : List (List Char)) (acc : List (String × String)),
      lookupA (lines.foldl attrStep acc) name =
        orO (specLastDeclaredValue name lines) (lookupA acc name) := by
  intro lines
  induction lines with
  | nil => intro acc; rfl
  | cons l rest ih =>
    intro acc
    simp only [List.foldl_cons]
    rw [ih (attrStep acc l)]
    simp only [specLastDeclaredValue]
    cases hrest : specLastDeclaredValue name rest with
    | some v => simp [orO]
    | none =>
      simp only [orO]
      cases hl : attrLineMatch l with
      | none => simp [attrStep, hl]
      | some p =>
        obtain ⟨n, m2⟩ := p
        simp only [attrStep, hl]
        by_cases hn : n.asString = name
        · subst hn
          simp [lookupA_upsert_self, orO]
        · rw [lookupA_upsert_ne _ _ _ _ hn]
          simp [hn, orO]

theorem specSectionAt_cons (l : List Char) (pre : List (List Char)) (dflt : List Char) :
    specSectionAt (l :: pre) dflt =
      specSectionAt pre (if l.head? = some '=' then headingTitleChars l else dflt) := by
  by_cases h : l.head? = some '='
  · simp only [specSectionAt, List.filter_cons]
    rw [if_pos (by simp [h]), if_pos h]
    cases hf : pre.filter (fun x => x.head? = some '=') with
    | nil => simp [hf]
    | cons a as =>
      rw [List.getLast?_cons_cons]
      cases hg : (a :: as).getLast? with
      | some x => rfl
      | none =>
        exfalso
        have hne : (a :: as) ≠ [] := by simp
        rw [← List.getLast?_isSome, hg] at hne
        simp at hne
  · simp only [specSectionAt, List.filter_cons]
    rw [if_neg (by simp [h]), if_neg h]

theorem withIdx_succ {α : Type} (l : List α) (n : Nat) :
    withIdx l (n + 1) = (withIdx l n).map (fun p => (p.1 + 1, p.2)) := by
  induction l generalizing n with
  | nil => rfl
  | cons a as ih => simp [withIdx, ih]

theorem findUsagesLoop_eq_spec (fp a : String) (pat : List Char) :
    ∀ (lines : List (List Char)) (idx : Nat) (cur : List Char),
      findUsagesLoop fp a pat lines idx cur =
        (withIdx lines 0).filterMap (fun p =>
          if containsSub pat p.2 then
            some ⟨a, fp, idx + p.1 + 1, (goTrim p.2).asString,
                  (specSectionAt (lines.take (p.1 + 1)) cur).asString⟩
          else none) := by
  intro lines
  induction lines with
  | nil => intro idx cur; rfl
  | cons line rest ih =>
    intro idx cur
    have hfun :
        ((fun (p : Nat × List Char) =>
            if containsSub pat p.2 then
              some (AttributeUsage.mk a fp (idx + p.1 + 1) (goTrim p.2).asString
                    (specSectionAt ((line :: rest).take (p.1 + 1)) cur).asString)
            else none) ∘ (fun (p : Nat × List Char) => (p.1 + 1, p.2))) =
        (fun (p : Nat × List Char) =>
          if containsSub pat p.2 then
            some (AttributeUsage.mk a fp (idx + 1 + p.1 + 1) (goTrim p.2).asString
                  (specSectionAt (rest.take (p.1 + 1))
                    (if line.head? = some '=' then headingTitleChars line else cur)).asString)
          else none) := by
      funext p
      simp only [Function.comp]
      by_cases hcp : containsSub pat p.2 = true
      · rw [if_pos hcp, if_pos hcp]
        have harith : idx + (p.1 + 1) + 1 = idx + 1 + p.1 + 1 := by omega
        have htake : (line :: rest).take (p.1 + 1 + 1) = line :: rest.take (p.1 + 1) := by
          simp [List.take_cons]
        rw [harith, htake, specSectionAt_cons]
      · rw [if_neg hcp, if_neg hcp]
    have hsec0 : specSectionAt ((line :: rest).take (0 + 1)) cur =
        (if line.head? = some '=' then headingTitleChars line else cur) := by
      have ht : (line :: rest).take (0 + 1) = [line] := by simp
      rw [ht]
      by_cases h : line.head? = some '='
      · rw [if_pos h]; simp [specSectionAt, h]
      · rw [if_neg h]; simp [specSectionAt, h]
    simp only [findUsagesLoop]
    rw [ih (idx + 1) (if line.head? = some '=' then headingTitleChars line else cur)]
    show _ = List.filterMap _ (withIdx (line :: rest) 0)
    rw [show withIdx (line :: rest) 0 = (0, line) :: withIdx rest (0 + 1) from rfl]
    rw [withIdx_succ rest 0, List.filterMap_cons, List.filterMap_map, hfun]
    by_cases hc : containsSub pat line = true
    · rw [if_pos hc]
      simp only [if_pos hc]
      rw [hsec0]
    · rw [if_neg hc]
      simp only [if_neg hc]

/-- C8: for every input text, `ExtractAttributes` maps each attribute name
declared on a well-formed `:name: value` line to exactly that value with
surrounding whitespace removed, and when the same name is declared on
several lines the map holds the most recently declared value: looking any
name up in the scan result returns precisely the last trimmed value
declared for it over the scanned lines, and `none` when no line declares
it. -/
theorem C8_extract_attributes_last_trimmed_value (content : String) (name : String) :
    lookupA (extractAttributes content) name =
      specLastDeclaredValue name (scanLines content.toList) := by
  have h := lookupA_foldl_attrStep name (scanLines content.toList) []
  simpa [extractAttributes, orO_none_right, lookupA] using h

/-- C9 counterexample: on the one-line content `{a} {a}` the literal
pattern `{a}` has two non-overlapping occurrences, yet `FindAttributeUsages`
returns a single usage, because the Go code only asks `MatchString` once
per line; so the scan does not return one usage per occurrence. -/

theorem C9_counterexample_per_line_not_per_occurrence :
    countOcc (('{' :: "a".toList) ++ ['}']) "{a} {a}".toList = 2 ∧
    (findAttributeUsages "{a} {a}" "f" "a").length = 1 := by
  decide

/-- C9 amended: `FindAttributeUsages` returns one usage per line of the
content containing at least one occurrence of the literal `{name}` (not one
per occurrence), in ascending 1-based line order, each with the trimmed
line text as context and sectionTitle equal to the nearest heading line
(prefix `=`) at or before that line, empty when no heading precedes; and on
the input `":api-p99-latency: 100ms\n\n== Perf\nTarget: {api-p99-latency}\n"`
the scan yields exactly one usage, at line 4, with sectionTitle `Perf`. -/

theorem C9_amended_usages_per_matching_line (content fp attrName : String) :
    findAttributeUsages content fp attrName =
      (withIdx (splitOnNl content.toList) 0).filterMap (fun p =>
        if containsSub (('{' :: attrName.toList) ++ ['}']) p.2 then
          some ⟨attrName, fp, p.1 + 1, (goTrim p.2).asString,
                (specSectionAt ((splitOnNl content.toList).take (p.1 + 1)) []).asString⟩
        else none) ∧
    findAttributeUsages ":api-p99-latency: 100ms\n\n== Perf\nTarget: {api-p99-latency}\n"
        "f" "api-p99-latency" =
      [⟨"api-p99-latency", "f", 4, "Target: {api-p99-latency}", "Perf"⟩] := by
  constructor
  · have h := findUsagesLoop_eq_spec fp attrName (('{' :: attrName.toList) ++ ['}'])
      (splitOnNl content.toList) 0 []
    simpa [findAttributeUsages] using h
  · decide

theorem setLastEnd_map_secProj (acc : List SectionInfo) (e : Int) :
    (setLastEnd acc e).map secProj = acc.map secProj := by
  induction acc with
  | nil => rfl
  | cons s rest ih =>
    cases rest with
    | nil => rfl
    | cons t ts =>
      simp only [setLastEnd, List.map_cons]
      rw [ih]
      simp

theorem extractSectionsLoop_proj (fp : String) :
    ∀ (lines : List (List Char)) (n : Nat) (acc : List SectionInfo),
      (extractSectionsLoop fp lines n acc).map secProj =
        acc.map secProj ++ (withIdx lines n).filterMap (fun p =>
          (sectionLineMatch p.2).map (fun m => (p.1, m.1 - 1, (goTrim m.2).asString))) := by
  intro lines
  induction lines with
  | nil => intro n acc; simp [extractSectionsLoop, withIdx]
  | cons line rest ih =>
    intro n acc
    cases h : sectionLineMatch line with
    | none =>
      simp only [extractSectionsLoop, h]
      rw [ih (n + 1) acc]
      simp [withIdx, List.filterMap_cons, h]
    | some m =>
      obtain ⟨k, m2⟩ := m
      simp only [extractSectionsLoop, h]
      rw [ih]
      simp [withIdx, List.filterMap_cons, h, List.map_append,
        setLastEnd_map_secProj, secProj, List.append_assoc]

/-- C7: for every readable file, the section scanner returns exactly one
section per heading line (a line starting, without leading whitespace, with
one or more `=`, then whitespace, then at least one further character),
each section's startLine being the 1-based number of its heading line and
its level the count of leading `=` minus 1; and a line with leading
whitespace before the `=` markers never matches the heading pattern. -/
theorem C7_section_scanner (fs : FS) (path content : String)
    (h : fsRead fs path = some content) :
    (extractSectionsFromFile fs path).map (fun secs => secs.map secProj) =
      some (specSectionHeads (scanLines content.toList)) ∧
    ∀ (l : List Char) (c : Char), l.head? = some c → isGoSpace c = true →
      sectionLineMatch l = none := by
  constructor
  · simp only [extractSectionsFromFile, h, Option.map_some']
    rw [extractSectionsLoop_proj path (scanLines content.toList) 1 []]
    simp [specSectionHeads]
  · intro l c hh hsp
    cases l with
    | nil => simp at hh
    | cons c0 t =>
      have hc0 : c0 = c := by simpa using hh
      subst hc0
      have hc : ¬ (c0 = '=') := by
        intro hEq
        subst hEq
        simp [isGoSpace] at hsp
      simp [sectionLineMatch, List.takeWhile_cons, hc]

/-- Witness for C7: on the concrete fixture the hypothesis holds by
evaluation and the scanner yields exactly the three expected headings. -/
theorem C7_section_scanner_witness :
    fsRead fsC7 "/m" = some contentC7 ∧
    (extractSectionsFromFile fsC7 "/m").map (fun secs => secs.map secProj) =
      some [(1, 0, "Title"), (3, 1, "Sub A"), (6, 2, "Deep")] :=
  ⟨by rfl, ((C7_section_scanner fsC7 "/m" contentC7 (by rfl)).1).trans (by decide)⟩

theorem nodup_keys_extractBlocksLoop :
    ∀ (lines : List (List Char)) (title content : List Char)
      (acc : List (String × String)), (keysA acc).Nodup →
      (keysA (extractBlocksLoop lines title content acc)).Nodup := by
  intro lines
  induction lines with
  | nil =>
    intro title content acc h
    simp only [extractBlocksLoop]
    by_cases ht : title ≠ []
    · rw [if_pos ht]; exact nodup_keysA_upsert _ _ _ h
    · rw [if_neg ht]; exact h
  | cons line rest ih =>
    intro title content acc h
    simp only [extractBlocksLoop]
    by_cases hh : line.head? = some '#'
    · rw [if_pos hh]
      apply ih
      by_cases ht : title ≠ []
      · rw [if_pos ht]; exact nodup_keysA_upsert _ _ _ h
      · rw [if_neg ht]; exact h
    · rw [if_neg hh]
      by_cases ht : title ≠ []
      · rw [if_pos ht]; exact ih _ _ _ h
      · rw [if_neg ht]; exact ih _ _ _ h

theorem sectionChangesOf_self (m : List (String × String))
    (h : (keysA m).Nodup) : sectionChangesOf m m = [] := by
  simp only [sectionChangesOf]
  refine List.append_eq_nil.mpr ⟨?_, ?_⟩
  · apply List.filterMap_eq_nil_iff.mpr
    intro p hp
    obtain ⟨a, b⟩ := p
    have hl : lookupA m a = some b := lookupA_of_mem_nodup h hp
    rw [hl]
    simp
  · apply List.filterMap_eq_nil_iff.mpr
    intro p hp
    obtain ⟨a, b⟩ := p
    have hs := lookupA_isSome_of_mem hp
    cases hl : lookupA m a with
    | none => rw [hl] at hs; simp at hs
    | some v => simp [hl]

theorem analyzeSectionChanges_self_of_eq (old new : String)
    (h : extractSectionBlocks old = extractSectionBlocks new) :
    analyzeSectionChanges old new = [] := by
  unfold analyzeSectionChanges
  rw [h]
  exact sectionChangesOf_self _
    (nodup_keys_extractBlocksLoop _ _ _ _ (by simp [keysA]))

theorem diffOutputLines_eq_op (t : List Char) :
    diffOutputLines ⟨DiffOp.eq, t⟩ = [] := by
  simp only [diffOutputLines]
  have h : (splitOnNl t).filterMap (fun line =>
      if line = [] then none
      else
        match DiffOp.eq with
        | DiffOp.del => some (('-' :: line) ++ ['\n'])
        | DiffOp.ins => some (('+' :: line) ++ ['\n'])
        | DiffOp.eq => none) = [] := by
    apply List.filterMap_eq_nil_iff.mpr
    intro line _
    by_cases hl : line = [] <;> simp [hl]
  rw [h]
  rfl

/-- C4: diffing a rendered string against an identical copy of itself
yields the unchanged outcome, zero section changes, and a reduced diff with
no diff lines at all (only the two fixed header label lines); and for every
pair of rendered strings the unchanged flag is exactly the
textual-equality test of the two full strings. -/
theorem C4_unchanged_iff_identical :
    (∀ s l1 l2 : String,
      hasChanges s s = false ∧
      analyzeSectionChanges s s = [] ∧
      generateUnifiedDiff s s l1 l2 =
        ("--- ".toList ++ l1.toList ++ ['\n'] ++
         "+++ ".toList ++ l2.toList ++ ['\n']).asString) ∧
    (∀ old new : String, hasChanges old new = false ↔ old = new) := by
  constructor
  · intro s l1 l2
    refine ⟨by simp [hasChanges], analyzeSectionChanges_self_of_eq s s rfl, ?_⟩
    simp only [generateUnifiedDiff, lineDiffModel, if_pos rfl]
    by_cases hs : s.toList = []
    · rw [if_pos hs]
      simp
    · rw [if_neg hs]
      simp [diffOutputLines_eq_op]
  · intro old new
    simp [hasChanges]

theorem extractBlocksLoop_drop_preamble :
    ∀ (p r : List (List Char)) (acc : List (String × String)),
      (∀ l ∈ p, l.head? ≠ some '#') →
      extractBlocksLoop (p ++ r) [] [] acc = extractBlocksLoop r [] [] acc := by
  intro p
  induction p with
  | nil => intro r acc _; rfl
  | cons line rest ih =>
    intro r acc hp
    have h1 : line.head? ≠ some '#' := hp line (by simp)
    simp only [List.cons_append, extractBlocksLoop]
    rw [if_neg h1, if_neg (by simp)]
    exact ih r acc (fun l hl => hp l (by simp [hl]))

/-- C10: every line preceding the first line beginning with `#` belongs to
no section block of `extractSectionBlocks`, so for two rendered strings
that differ only in that pre-heading preamble the section-change analysis
returns an empty change list while the overall changed flag is still set
(the strings are not identical). -/
theorem C10_preamble_outside_sections
    (p1 p2 r : List (List Char)) (old new : String)
    (hp1 : ∀ l ∈ p1, l.head? ≠ some '#')
    (hp2 : ∀ l ∈ p2, l.head? ≠ some '#')
    (hold : splitOnNl old.toList = p1 ++ r)
    (hnew : splitOnNl new.toList = p2 ++ r)
    (hne : old ≠ new) :
    analyzeSectionChanges old new = [] ∧ hasChanges old new = true := by
  constructor
  · apply analyzeSectionChanges_self_of_eq
    unfold extractSectionBlocks
    rw [hold, hnew, extractBlocksLoop_drop_preamble p1 r [] hp1,
        extractBlocksLoop_drop_preamble p2 r [] hp2]
  · simp [hasChanges, hne]

/-- Witness for C10: the strings `"x\n# A\nb"` and `"y\n# A\nb"` differ only
in the preamble line before the heading; the analysis reports no section
change while the changed flag is set. -/
theorem C10_preamble_outside_sections_witness :
    analyzeSectionChanges "x\n# A\nb" "y\n# A\nb" = [] ∧
    hasChanges "x\n# A\nb" "y\n# A\nb" = true :=
  C10_preamble_outside_sections [['x']] [['y']] [['#', ' ', 'A'], ['b']]
    "x\n# A\nb" "y\n# A\nb" (by decide) (by decide) (by decide) (by decide)
    (by decide)

/-- C3 counterexample: diffing `"# A\nfoo\n"` against
`"# A\nfoo\n# B\nbar\n"` does not yield the single change the claim
predicts (section B "added" with one added line and section A in no
entry). -/
theorem C3_counterexample_not_single_added :
    analyzeSectionChanges "# A\nfoo\n" "# A\nfoo\n# B\nbar\n" ≠
      [⟨"B", "added", 1, 0⟩] := by
  decide

/-- C3 amended: diffing `"# A\nfoo\n"` against `"# A\nfoo\n# B\nbar\n"`
yields exactly two changes: section A "modified" with 0 added and 1 removed
line (the old string's block for A ends with an extra empty split piece
that disappears once the B heading follows), and section B "added" with
AddedLines = 3 (its stored block is `"bar\n\n"` and the count is the
newline count plus one). -/
theorem C3_amended_modified_a_added_b :
    analyzeSectionChanges "# A\nfoo\n" "# A\nfoo\n# B\nbar\n" =
      [⟨"A", "modified", 0, 1⟩, ⟨"B", "added", 3, 0⟩] := by
  decide

theorem mem_fsKeys_of_fsRead (fs : FS) (p : String) (c : String)
    (h : fsRead fs p = some c) : p ∈ fsKeys fs := by
  rw [fsKeys, List.mem_dedup]
  induction fs with
  | nil => simp [fsRead] at h
  | cons hd tl ih =>
    obtain ⟨k, v⟩ := hd
    by_cases hk : k = p
    · subst hk; simp
    · simp only [fsRead, if_neg hk] at h
      simp [ih h]

theorem unvisitedCount_le_of_subset (fs : FS) (v1 v2 : List String)
    (h : ∀ x ∈ v1, x ∈ v2) :
    unvisitedCount fs v2 ≤ unvisitedCount fs v1 := by
  apply List.Sublist.length_le
  apply List.monotone_filter_right
  intro a ha
  have h2 : a ∉ v2 := by simpa using ha
  have h1 : a ∉ v1 := fun hx => h2 (h a hx)
  simpa using h1

theorem filter_length_lt {α : Type} (l : List α) (p q : α → Bool)
    (hpq : ∀ x, p x = true → q x = true) (a : α) (ha : a ∈ l)
    (hqa : q a = true) (hpa : p a = false) :
    (l.filter p).length < (l.filter q).length := by
  induction l with
  | nil => simp at ha
  | cons b t ih =>
    rcases List.mem_cons.mp ha with hb | ht
    · subst hb
      simp only [List.filter_cons, hqa, hpa]
      have hle : (t.filter p).length ≤ (t.filter q).length :=
        (List.monotone_filter_right t hpq).length_le
      simp only [if_true, if_false, Bool.false_eq_true, List.length_cons]
      omega
    · by_cases hpb : p b = true
      · have hqb := hpq b hpb
        simp only [List.filter_cons, hpb, hqb, if_true, List.length_cons]
        exact Nat.succ_lt_succ (ih ht)
      · have hpb' : p b = false := by
          cases hb2 : p b
          · rfl
          · exact absurd hb2 hpb
        cases hqb : q b
        · simp only [List.filter_cons, hpb', hqb, Bool.false_eq_true, if_false]
          exact ih ht
        · simp only [List.filter_cons, hpb', hqb, Bool.false_eq_true, if_false,
            if_true, List.length_cons]
          exact Nat.lt_succ_of_lt (ih ht)

theorem unvisitedCount_cons_lt (fs : FS) (visited : List String) (p : String)
    (hmem : p ∈ fsKeys fs) (hnv : p ∉ visited) :
    unvisitedCount fs (p :: visited) < unvisitedCount fs visited := by
  unfold unvisitedCount
  apply filter_length_lt (fsKeys fs)
    (fun k => !((p :: visited).contains k)) (fun k => !(visited.contains k))
    ?_ p hmem ?_ ?_
  · intro x hx
    have hx2 : ¬ (x = p ∨ x ∈ visited) := by simpa using hx
    simpa using fun hv => hx2 (Or.inr hv)
  · simpa using hnv
  · simp

theorem collect_visited_mono (fs : FS) :
    ∀ (fuel : Nat),
      (∀ (p : String) (st : CollectSt) (r : CollectSt × Bool),
        collectIncludesF fs fuel p st = some r →
          ∀ x ∈ st.visited, x ∈ r.1.visited) ∧
      (∀ (incs : List IncludeInfo) (st : CollectSt) (r : CollectSt × Bool),
        collectLoopWith (collectIncludesF fs fuel) incs st = some r →
          ∀ x ∈ st.visited, x ∈ r.1.visited) := by
  intro fuel
  induction fuel with
  | zero =>
    constructor
    · intro p st r h
      simp [collectIncludesF] at h
    · intro incs
      induction incs with
      | nil =>
        intro st r h x hx
        simp only [collectLoopWith] at h
        cases h
        exact hx
      | cons inc rest ihr =>
        intro st r h
        simp [collectLoopWith, collectIncludesF] at h
  | succ n ih =>
    obtain ⟨ihF, ihL⟩ := ih
    have hF : ∀ (p : String) (st : CollectSt) (r : CollectSt × Bool),
        collectIncludesF fs (n + 1) p st = some r →
          ∀ x ∈ st.visited, x ∈ r.1.visited := by
      intro p st r h x hx
      simp only [collectIncludesF] at h
      by_cases hv : st.visited.contains (goAbs p) = true
      · rw [if_pos hv] at h
        cases h
        exact hx
      · rw [if_neg hv] at h
        cases hread : extractIncludesFromFile fs (goAbs p) with
        | none =>
          rw [hread] at h
          cases h
          exact List.mem_cons_of_mem _ hx
        | some incs =>
          rw [hread] at h
          exact ihL incs { st with visited := goAbs p :: st.visited } r h x
            (List.mem_cons_of_mem _ hx)
    refine ⟨hF, ?_⟩
    intro incs
    induction incs with
    | nil =>
      intro st r h x hx
      simp only [collectLoopWith] at h
      cases h
      exact hx
    | cons inc rest ihr =>
      intro st r h x hx
      simp only [collectLoopWith] at h
      cases hf : collectIncludesF fs (n + 1) inc.absPath
          { st with files := st.files ++ [inc.absPath] } with
      | none =>
        rw [hf] at h
        simp at h
      | some r2 =>
        rw [hf] at h
        obtain ⟨st2, b2⟩ := r2
        exact ihr st2 r h x
          (hF inc.absPath { st with files := st.files ++ [inc.absPath] } (st2, b2)
            hf x hx)

theorem collectIncludesF_succ (fs : FS) (fuel : Nat) (filePath : String)
    (st : CollectSt) :
    collectIncludesF fs (fuel + 1) filePath st =
      (if st.visited.contains (goAbs filePath) = true then some (st, true)
       else
         match extractIncludesFromFile fs (goAbs filePath) with
         | none => some ({ st with visited := goAbs filePath :: st.visited }, false)
         | some includes =>
           collectLoopWith (collectIncludesF fs fuel) includes
             { st with visited := goAbs filePath :: st.visited }) := rfl

theorem collect_fuel_step (fs : FS) :
    ∀ (n : Nat),
      (∀ (p : String) (st : CollectSt), unvisitedCount fs st.visited < n →
        collectIncludesF fs (n + 1) p st = collectIncludesF fs n p st ∧
        (collectIncludesF fs n p st).isSome) ∧
      (∀ (incs : List IncludeInfo) (st : CollectSt),
        unvisitedCount fs st.visited < n →
        collectLoopWith (collectIncludesF fs (n + 1)) incs st =
          collectLoopWith (collectIncludesF fs n) incs st ∧
        (collectLoopWith (collectIncludesF fs n) incs st).isSome) := by
  intro n
  induction n with
  | zero =>
    constructor
    · intro p st h
      exact absurd h (Nat.not_lt_zero _)
    · intro incs st h
      exact absurd h (Nat.not_lt_zero _)
  | succ m ih =>
    obtain ⟨ihF, ihL⟩ := ih
    have hF : ∀ (p : String) (st : CollectSt),
        unvisitedCount fs st.visited < m + 1 →
        collectIncludesF fs (m + 2) p st = collectIncludesF fs (m + 1) p st ∧
        (collectIncludesF fs (m + 1) p st).isSome := by
      intro p st hlt
      rw [collectIncludesF_succ fs (m + 1) p st, collectIncludesF_succ fs m p st]
      by_cases hv : st.visited.contains (goAbs p) = true
      · rw [if_pos hv, if_pos hv]
        exact ⟨rfl, rfl⟩
      · rw [if_neg hv, if_neg hv]
        cases hread : extractIncludesFromFile fs (goAbs p) with
        | none =>
          exact ⟨rfl, rfl⟩
        | some incs =>
          have hmem : goAbs p ∈ fsKeys fs := by
            obtain ⟨c, hc⟩ : ∃ c, fsRead fs (goAbs p) = some c := by
              unfold extractIncludesFromFile at hread
              cases hr : fsRead fs (goAbs p) with
              | none => rw [hr] at hread; simp at hread
              | some c => exact ⟨c, rfl⟩
            exact mem_fsKeys_of_fsRead fs _ _ hc
          have hnv : goAbs p ∉ st.visited := by simpa using hv
          have hdec : unvisitedCount fs (goAbs p :: st.visited) <
              unvisitedCount fs st.visited :=
            unvisitedCount_cons_lt fs st.visited (goAbs p) hmem hnv
          have hlt' : unvisitedCount fs (goAbs p :: st.visited) < m := by omega
          have hstep := ihL incs { st with visited := goAbs p :: st.visited } hlt'
          exact ⟨hstep.1, hstep.2⟩
    refine ⟨hF, ?_⟩
    intro incs
    induction incs with
    | nil =>
      intro st h
      exact ⟨rfl, rfl⟩
    | cons inc rest ihr =>
      intro st hlt
      have hcall := hF inc.absPath { st with files := st.files ++ [inc.absPath] } hlt
      cases hsome : collectIncludesF fs (m + 1) inc.absPath
          { st with files := st.files ++ [inc.absPath] } with
      | none =>
        rw [hsome] at hcall
        simp at hcall
      | some r2 =>
        obtain ⟨st2, b2⟩ := r2
        have heq : collectIncludesF fs (m + 2) inc.absPath
            { st with files := st.files ++ [inc.absPath] } = some (st2, b2) := by
          rw [hcall.1, hsome]
        have hmono : ∀ x ∈ st.visited, x ∈ st2.visited := fun x hx =>
          (collect_visited_mono fs (m + 1)).1 inc.absPath _ (st2, b2) hsome x hx
        have hlt2 : unvisitedCount fs st2.visited < m + 1 :=
          Nat.lt_of_le_of_lt
            (unvisitedCount_le_of_subset fs st.visited st2.visited hmono) hlt
        have hrest := ihr st2 hlt2
        constructor
        · simp only [collectLoopWith]
          rw [heq, hsome]
          exact hrest.1
        · simp only [collectLoopWith]
          rw [hsome]
          exact hrest.2

theorem collectIncludesF_stable (fs : FS) (p : String) (st : CollectSt) (n : Nat)
    (hn : unvisitedCount fs st.visited < n) :
    ∀ m, n ≤ m → collectIncludesF fs m p st = collectIncludesF fs n p st := by
  intro m hm
  induction m, hm using Nat.le_induction with
  | base => rfl
  | succ k hk ihk =>
    have hstep := (collect_fuel_step fs k).1 p st (Nat.lt_of_lt_of_le hn hk)
    rw [hstep.1, ihk]

theorem unvisitedCount_nil (fs : FS) :
    unvisitedCount fs [] = (fsKeys fs).length := by
  simp [unvisitedCount]

/-- C1 counterexample: when `/a` includes `/b` through two separate
directives, `GetIncludedFiles` lists `/b` twice — the flat list is not
deduplicated, because the append to the output happens per directive,
before the visited check inside the recursive call. -/
theorem C1_counterexample_duplicate_entries :
    getIncludedFiles 5 fsDup "/a" = some (some ["/b", "/b"]) ∧
    (["/b", "/b"] : List String).count "/b" = 2 := by
  decide

/-- C1 amended: recursive include discovery terminates on every include
graph — any two fuels beyond the number of files give the same, defined
result, which is the termination statement for the fuel model — and in the
cycle where `/a` includes `/b` and `/b` includes `/a` each of the two files
appears exactly once in the discovered list; but the list is not
deduplicated in general: a file included by several directives appears once
per directive. -/
theorem C1_amended_terminating_cycle_once (fs : FS) (p : String) (f1 f2 : Nat)
    (h1 : (fsKeys fs).length < f1) (h2 : (fsKeys fs).length < f2) :
    getIncludedFiles f1 fs p = getIncludedFiles f2 fs p ∧
    (getIncludedFiles f1 fs p).isSome ∧
    getIncludedFiles 5 fsCycle "/a" = some (some ["/b", "/a"]) ∧
    (["/b", "/a"] : List String).count "/a" = 1 ∧
    (["/b", "/a"] : List String).count "/b" = 1 := by
  have hn : unvisitedCount fs ([] : List String) < (fsKeys fs).length + 1 := by
    rw [unvisitedCount_nil]
    omega
  have e1 : collectIncludesF fs f1 p ⟨[], []⟩ =
      collectIncludesF fs ((fsKeys fs).length + 1) p ⟨[], []⟩ :=
    collectIncludesF_stable fs p ⟨[], []⟩ _ hn f1 (by omega)
  have e2 : collectIncludesF fs f2 p ⟨[], []⟩ =
      collectIncludesF fs ((fsKeys fs).length + 1) p ⟨[], []⟩ :=
    collectIncludesF_stable fs p ⟨[], []⟩ _ hn f2 (by omega)
  refine ⟨?_, ?_, by decide, by decide, by decide⟩
  · unfold getIncludedFiles
    rw [e1, e2]
  · unfold getIncludedFiles
    have hs := ((collect_fuel_step fs f1).1 p ⟨[], []⟩
      (by rw [show (⟨[], []⟩ : CollectSt).visited = [] from rfl, unvisitedCount_nil]; omega)).2
    cases hq : collectIncludesF fs f1 p ⟨[], []⟩ with
    | none => rw [hq] at hs; simp at hs
    | some r =>
      obtain ⟨st, ok⟩ := r
      simp

/-- Witness for C1: for the cycle fixture and fuels 3 and 4 the hypotheses
hold by evaluation; the result is fuel independent and defined. -/
theorem C1_amended_terminating_cycle_once_witness :
    (fsKeys fsCycle).length < 3 ∧ (fsKeys fsCycle).length < 4 ∧
    getIncludedFiles 3 fsCycle "/a" = getIncludedFiles 4 fsCycle "/a" ∧
    (getIncludedFiles 3 fsCycle "/a").isSome := by
  refine ⟨by decide, by decide, ?_, ?_⟩
  · exact (C1_amended_terminating_cycle_once fsCycle "/a" 3 4 (by decide)
      (by decide)).1
  · exact (C1_amended_terminating_cycle_once fsCycle "/a" 3 4 (by decide)
      (by decide)).2.1

/-- C2 counterexample: an included file that cannot be opened is swallowed
without error, but it is not omitted from the file list: `/missing` is
absent from the file system yet appears in the result, because the append
to the output precedes the read attempt of the recursive call. -/
theorem C2_counterexample_unreadable_file_listed :
    getIncludedFiles 5 fsMissing "/a" = some (some ["/missing"]) ∧
    fsRead fsMissing "/missing" = none := by
  decide

/-- C2 amended: an included file that cannot be opened during recursive
discovery is swallowed without error and the traversal continues: the
file's path is still appended to the output list (the append precedes the
read attempt), the path is marked visited, none of its descendants
contribute anything, and the loop proceeds with the remaining directives
exactly as if no error had occurred. -/
theorem C2_amended_unreadable_swallowed (fs : FS) (fuel : Nat)
    (inc : IncludeInfo) (rest : List IncludeInfo) (st : CollectSt)
    (hvis : st.visited.contains (goAbs inc.absPath) = false)
    (hread : fsRead fs (goAbs inc.absPath) = none) :
    collectLoopWith (collectIncludesF fs (fuel + 1)) (inc :: rest) st =
      collectLoopWith (collectIncludesF fs (fuel + 1)) rest
        { visited := goAbs inc.absPath :: st.visited,
          files := st.files ++ [inc.absPath] } := by
  have hx : extractIncludesFromFile fs (goAbs inc.absPath) = none := by
    unfold extractIncludesFromFile
    rw [hread]
    rfl
  simp only [collectLoopWith]
  rw [collectIncludesF_succ, if_neg (by simpa using hvis), hx]

/-- Witness for C2: the concrete unreadable include `/missing` is appended,
marked visited, and the traversal ends successfully. -/
theorem C2_amended_unreadable_swallowed_witness :
    collectLoopWith (collectIncludesF fsMissing 4)
        [⟨"/missing", "/missing", 1, [], "/a"⟩] ⟨["/a"], []⟩ =
      collectLoopWith (collectIncludesF fsMissing 4) []
        ⟨["/missing", "/a"], ["/missing"]⟩ ∧
    collectLoopWith (collectIncludesF fsMissing 4) []
        ⟨["/missing", "/a"], ["/missing"]⟩ =
      some (⟨["/missing", "/a"], ["/missing"]⟩, true) := by
  constructor
  · exact C2_amended_unreadable_swallowed fsMissing 3
      ⟨"/missing", "/missing", 1, [], "/a"⟩ [] ⟨["/a"], []⟩ (by decide) (by decide)
  · rfl

theorem buildNodeF_succ (fs : FS) (fuel : Nat) (filePath : String)
    (tags visited : List String) :
    buildNodeF fs (fuel + 1) filePath tags visited =
      (if visited.contains filePath = true then some (none, visited)
       else
         match extractIncludesFromFile fs filePath with
         | none =>
           some (some (IncludeNode.mk (goBase filePath) filePath [] tags),
             filePath :: visited)
         | some includes =>
           match buildNodeLoopWith (buildNodeF fs fuel) includes []
               (filePath :: visited) with
           | none => none
           | some (children, visited2) =>
             some (some (IncludeNode.mk (goBase filePath) filePath children tags),
               visited2)) := rfl

/-- C6: in include-tree construction a directive whose target is already on
the visited set yields nil and contributes no node to the tree (the loop
appends nothing for it), whereas an unvisited target whose file cannot be
opened still yields a node for that path with an empty children list rather
than being omitted. -/
theorem C6_tree_nil_on_cycle_childless_on_unreadable
    (fs : FS) (fuel : Nat) (path : String) (tags visited : List String)
    (inc : IncludeInfo) (rest : List IncludeInfo) (children : List IncludeNode) :
    (visited.contains path = true →
      buildNodeF fs (fuel + 1) path tags visited = some (none, visited)) ∧
    (visited.contains inc.absPath = true →
      buildNodeLoopWith (buildNodeF fs (fuel + 1)) (inc :: rest) children visited =
        buildNodeLoopWith (buildNodeF fs (fuel + 1)) rest children visited) ∧
    (visited.contains path = false → fsRead fs path = none →
      buildNodeF fs (fuel + 1) path tags visited =
        some (some (IncludeNode.mk (goBase path) path [] tags), path :: visited)) := by
  refine ⟨?_, ?_, ?_⟩
  · intro hv
    rw [buildNodeF_succ, if_pos hv]
  · intro hv
    simp only [buildNodeLoopWith]
    rw [buildNodeF_succ, if_pos hv]
  · intro hv hr
    have hx : extractIncludesFromFile fs path = none := by
      unfold extractIncludesFromFile
      rw [hr]
      rfl
    rw [buildNodeF_succ, if_neg (by simpa using hv), hx]

/-- Witness for C6: a visited path yields nil and is not appended by the
loop; the unreadable `/missing` yields a childless node carrying its tag. -/
theorem C6_tree_nil_on_cycle_childless_on_unreadable_witness :
    buildNodeF fsMissing 4 "/x" [] ["/x"] = some (none, ["/x"]) ∧
    buildNodeLoopWith (buildNodeF fsMissing 4)
        [⟨"/x", "/x", 1, [], "/a"⟩] [] ["/x"] =
      buildNodeLoopWith (buildNodeF fsMissing 4) [] [] ["/x"] ∧
    buildNodeF fsMissing 4 "/missing" ["t"] [] =
      some (some (IncludeNode.mk "missing" "/missing" [] ["t"]), ["/missing"]) := by
  refine ⟨?_, ?_, ?_⟩
  · exact (C6_tree_nil_on_cycle_childless_on_unreadable fsMissing 3 "/x" [] ["/x"]
      ⟨"/x", "/x", 1, [], "/a"⟩ [] []).1 (by decide)
  · exact (C6_tree_nil_on_cycle_childless_on_unreadable fsMissing 3 "/x" [] ["/x"]
      ⟨"/x", "/x", 1, [], "/a"⟩ [] []).2.1 (by decide)
  · exact (C6_tree_nil_on_cycle_childless_on_unreadable fsMissing 3 "/missing"
      ["t"] [] ⟨"/x", "/x", 1, [], "/a"⟩ [] []).2.2 (by decide) (by decide)

theorem collectLoopWith_ok (f : String → CollectSt → Option (CollectSt × Bool)) :
    ∀ (incs : List IncludeInfo) (st : CollectSt) (r : CollectSt × Bool),
      collectLoopWith f incs st = some r → r.2 = true := by
  intro incs
  induction incs with
  | nil =>
    intro st r h
    simp only [collectLoopWith] at h
    cases h
    rfl
  | cons inc rest ih =>
    intro st r h
    simp only [collectLoopWith] at h
    cases hf : f inc.absPath { st with files := st.files ++ [inc.absPath] } with
    | none => rw [hf] at h; simp at h
    | some r2 =>
      rw [hf] at h
      obtain ⟨st2, b2⟩ := r2
      exact ih st2 r h

theorem foldl_sections_eq (fs : FS) :
    ∀ (files : List String) (init : List SectionInfo),
      files.foldl (fun acc f =>
        match extractSectionsFromFile fs f with
        | none => acc
        | some secs => acc ++ secs) init =
      init ++ files.flatMap (fun f => (extractSectionsFromFile fs f).getD []) := by
  intro files
  induction files with
  | nil => intro init; simp
  | cons f rest ih =>
    intro init
    simp only [List.foldl_cons, List.flatMap_cons]
    cases hf : extractSectionsFromFile fs f with
    | none =>
      rw [ih]
      simp
    | some secs =>
      rw [ih]
      simp [List.append_assoc]

/-- C5: structure building is all-or-nothing with respect to the root file
and best-effort with respect to included files: when the root cannot be
read, the build returns an error and no structure for any fuel; when the
root is readable and the fuel exceeds the number of files, the build
succeeds and composes the root's attributes, includes and sections with
the sections of exactly the readable included files in discovery order —
an unreadable included file contributes no sections and nothing else is
lost. -/
theorem C5_root_fatal_included_best_effort
    (fs : FS) (root : String) (fuel : Nat) (habs : goAbs root = root) :
    (fsRead fs root = none → buildStructure fuel fs root = some none) ∧
    (∀ content, fsRead fs root = some content → (fsKeys fs).length < fuel →
      ∃ attrs incs rootSecs files,
        extractAttributesFromFile fs root = some attrs ∧
        extractIncludesFromFile fs root = some incs ∧
        extractSectionsFromFile fs root = some rootSecs ∧
        getIncludedFiles fuel fs root = some (some files) ∧
        buildStructure fuel fs root = some (some
          { manifestPath := root
            attributes := attrs.foldl (fun m a => upsert m a.name a) []
            includes := incs
            sections := rootSecs ++ files.flatMap (fun f =>
              (extractSectionsFromFile fs f).getD [])
            files := files })) := by
  constructor
  · intro h
    have ha : extractAttributesFromFile fs root = none := by
      unfold extractAttributesFromFile
      rw [h]
      rfl
    unfold buildStructure
    rw [ha]
  · intro content hc hfuel
    have ha : extractAttributesFromFile fs root =
        some (extractAttrDefsLoop root (scanLines content.toList) 1) := by
      unfold extractAttributesFromFile
      rw [hc]
      rfl
    have hi : extractIncludesFromFile fs root =
        some ((extractIncludes content).map (fun inc =>
          { inc with
            sourceFile := root
            absPath := resolveIncludePath (goDir root) inc.path })) := by
      unfold extractIncludesFromFile
      rw [hc]
      rfl
    have hs : extractSectionsFromFile fs root =
        some (extractSectionsLoop root (scanLines content.toList) 1 []) := by
      unfold extractSectionsFromFile
      rw [hc]
      rfl
    have hst0 : unvisitedCount fs (⟨[], []⟩ : CollectSt).visited < fuel := by
      show unvisitedCount fs [] < fuel
      rw [unvisitedCount_nil]
      exact hfuel
    have hsome := ((collect_fuel_step fs fuel).1 root ⟨[], []⟩ hst0).2
    cases hq : collectIncludesF fs fuel root ⟨[], []⟩ with
    | none => rw [hq] at hsome; simp at hsome
    | some r =>
      obtain ⟨stf, ok⟩ := r
      have hok : ok = true := by
        cases fuel with
        | zero => exact absurd hfuel (Nat.not_lt_zero _)
        | succ m =>
          rw [collectIncludesF_succ, if_neg (by simp), habs, hi] at hq
          exact collectLoopWith_ok _ _ _ _ hq
      subst hok
      have hg : getIncludedFiles fuel fs root = some (some stf.files) := by
        unfold getIncludedFiles
        rw [hq]
        rfl
      refine ⟨_, _, _, stf.files, ha, hi, hs, hg, ?_⟩
      unfold buildStructure
      rw [ha, hi, hg, hs]
      dsimp only
      rw [foldl_sections_eq]

/-- Witness for C5: on the concrete fixture the root is readable and the
build succeeds; an unreadable root path gives the error result. -/
theorem C5_root_fatal_included_best_effort_witness :
    fsRead fsBuild "/m" = some ":k: v\ninclude::/i[]\n= Root\n" ∧
    (fsKeys fsBuild).length < 5 ∧ goAbs "/m" = "/m" ∧
    (buildStructure 5 fsBuild "/m").isSome ∧
    buildStructure 5 fsBuild "/nope" = some none := by
  refine ⟨rfl, by decide, rfl, ?_, ?_⟩
  · obtain ⟨attrs, incs, rootSecs, files, _, _, _, _, hb⟩ :=
      (C5_root_fatal_included_best_effort fsBuild "/m" 5 rfl).2
        ":k: v\ninclude::/i[]\n= Root\n" rfl (by decide)
    rw [hb]
    rfl
  · exact (C5_root_fatal_included_best_effort fsBuild "/nope" 5 rfl).1 (by decide)

end CCA
